import Mathlib

/-!
Verification development for the ISR safety validator
(`tools/validators/isr_safety.py`).

The analyzer scans C source text for interrupt-callback function
definitions and flags calls to names registered in a forbidden-call
database.  The Python source is embedded shallowly below: source text is
`List Char`, rule maps are insertion-ordered association lists (Python
`dict` semantics), and the regular expressions of the callback locator
are translated pattern by pattern into deterministic matchers (each
pattern's backtracking is resolved statically; the commitment points are
justified in the doc comments of the matchers).
-/

namespace ISR

/-- Python `\w` (ASCII range, as used on C source text): letters, digits,
underscore. -/
def isWordChar (c : Char) : Bool :=
  ('a' ≤ c && c ≤ 'z') || ('A' ≤ c && c ≤ 'Z') || ('0' ≤ c && c ≤ '9') || c = '_'

/-- Python `\s` / `str.strip` whitespace (ASCII range): space, tab,
newline, carriage return, vertical tab, form feed. -/
def isSpaceChar (c : Char) : Bool :=
  c = ' ' || c = '\t' || c = '\n' || c = '\r' || c = '\x0b' || c = '\x0c'

/-- Python `str.split(sep)` for a one-character separator: splits on every
occurrence, keeping empty pieces (`"".split(s) = [""]`). -/
def splitOnChar (sep : Char) : List Char → List (List Char)
  | [] => [[]]
  | c :: rest =>
    match splitOnChar sep rest with
    | [] => [[]]
    | h :: t => if c = sep then [] :: h :: t else (c :: h) :: t

/-- `code.split("\n")` as used throughout the analyzer. -/
def splitLines (code : List Char) : List (List Char) :=
  splitOnChar '\n' code

/-- Number of lines of a source text (`len(code.split("\n"))`). -/
def numLines (code : List Char) : Nat :=
  (splitLines code).length

/-- Python `str.strip()` (ASCII whitespace). -/
def pyStrip (s : List Char) : List Char :=
  ((s.dropWhile isSpaceChar).reverse.dropWhile isSpaceChar).reverse

/-- `line.split("//")[0]`: the prefix of the line before the first
occurrence of the line-comment marker `//`. -/
def splitLineComment : List Char → List Char
  | [] => []
  | c :: rest =>
    if c = '/' && rest.head? == some '/' then []
    else c :: splitLineComment rest

/-- Scan for the first `*/` and return the text after it (the search for
the closing marker of `re.sub(r"/\*.*?\*/", ...)`, which starts two
characters past the opening `/*`). -/
def dropToClose : List Char → Option (List Char)
  | [] => none
  | c :: rest =>
    if c = '*' && rest.head? == some '/' then some rest.tail
    else dropToClose rest

/-- Fuelled worker for `removeBlockComments` (structural recursion on the
fuel so that the kernel can evaluate it; with fuel at least the text
length the fuel-out case is unreachable, see `removeBlockFuel_irrel` and
`removeBlockComments_cons`). -/
def removeBlockFuel : Nat → List Char → List Char
  | 0, s => s
  | _ + 1, [] => []
  | fuel + 1, c :: rest =>
    if c = '/' && rest.head? == some '*' then
      match dropToClose rest.tail with
      | some r' => removeBlockFuel fuel r'
      | none => c :: rest
    else c :: removeBlockFuel fuel rest

/-- `re.sub(r"/\*.*?\*/", "", line)`: remove every same-line block
comment.  The non-greedy body means: at the leftmost `/*` that has a
later `*/`, remove through the first such `*/` and continue after it.
When the leftmost `/*` has no later `*/`, no occurrence of the pattern
exists anywhere in the rest of the text (a match needs a `*/` after its
opener), so the text is returned unchanged. -/
def removeBlockComments (s : List Char) : List Char :=
  removeBlockFuel s.length s

/-- `true` when the text contains the two-character sequence `//`. -/
def hasDSlash : List Char → Bool
  | [] => false
  | c :: rest => (c = '/' && rest.head? == some '/') || hasDSlash rest

/-- `true` when the text contains the two-character sequence `/*`. -/
def hasOpenC : List Char → Bool
  | [] => false
  | c :: rest => (c = '/' && rest.head? == some '*') || hasOpenC rest

/-- `true` when the text contains the two-character sequence `*/`. -/
def hasClose : List Char → Bool
  | [] => false
  | c :: rest => (c = '*' && rest.head? == some '/') || hasClose rest

/-- Python `\b`: a word boundary stands between two positions whose
word-character status differs (text edges count as non-word). -/
def wordB (prev next : Option Char) : Bool :=
  (match prev with | none => false | some c => isWordChar c)
    != (match next with | none => false | some c => isWordChar c)

/-- Does the call-site pattern `\b<name>\s*\(` of
`check_function_for_violations` match at position `i` of `line`? -/
def callPatternAt (n line : List Char) (i : Nat) : Bool :=
  wordB (line.take i).getLast? (line.drop i).head? &&
  n.isPrefixOf (line.drop i) &&
  (((line.drop i).drop n.length).dropWhile isSpaceChar).head? == some '('

/-- `re.search(rf"\b{re.escape(call_name)}\s*\(", line)`: the pattern
matches at some position of the line. -/
def searchCall (n line : List Char) : Bool :=
  (List.range (line.length + 1)).any (callPatternAt n line)

/-- The per-line test of `check_function_for_violations` (lines 163–167):
strip the trailing `//` comment, strip same-line block comments, then
search for the call-site pattern. -/
def lineTriggers (n line : List Char) : Bool :=
  searchCall n (removeBlockComments (splitLineComment line))

/-- Modelled from the spec: the claim's side of C5 at one position —
`N` occurs at `i` "as a whole identifier (not preceded by an identifier
character and not continued by one) immediately followed by optional
whitespace and an opening parenthesis". -/
def specWholeIdentAt (n line : List Char) (i : Nat) : Bool :=
  n.isPrefixOf (line.drop i) &&
  (match (line.take i).getLast? with | none => true | some c => !isWordChar c) &&
  (match ((line.drop i).drop n.length).head? with | none => true | some c => !isWordChar c) &&
  (((line.drop i).drop n.length).dropWhile isSpaceChar).head? == some '('

/-- Modelled from the spec: `N` appears somewhere on the line as a whole
identifier followed by optional whitespace and `(` (claim C5's
condition). -/
def specWholeIdent (n line : List Char) : Bool :=
  (List.range (line.length + 1)).any (specWholeIdentAt n line)

/-- A forbidden function call (`ForbiddenCall` dataclass). -/
structure ForbiddenCall where
  name : List Char
  category : List Char
  reason : List Char
deriving DecidableEq, Repr

/-- A detected ISR safety violation (`Violation` dataclass). -/
structure Violation where
  file : List Char
  line : Nat
  callback_name : List Char
  forbidden_call : List Char
  category : List Char
  reason : List Char
  context : List Char
deriving DecidableEq, Repr

/-- One iteration of the loading loop of `load_forbidden_calls`: strip
the line; skip it when empty, `#`-prefixed, or not exactly three
`|`-separated fields; otherwise produce the rule. -/
def parseRuleLine (line : List Char) : Option ForbiddenCall :=
  let l := pyStrip line
  if l = [] then none
  else if l.head? == some '#' then none
  else
    match splitOnChar '|' l with
    | [n, c, r] => some ⟨n, c, r⟩
    | _ => none

/-- Python `dict` assignment `d[k] = v` on an insertion-ordered
association list: an existing key keeps its position and gets the new
value; a new key is appended. -/
def dictInsert (m : List (List Char × ForbiddenCall)) (k : List Char)
    (v : ForbiddenCall) : List (List Char × ForbiddenCall) :=
  match m with
  | [] => [(k, v)]
  | (k', v') :: rest =>
    if k' = k then (k, v) :: rest else (k', v') :: dictInsert rest k v

/-- Python `dict` lookup `d.get(k)`. -/
def dictLookup (k : List Char) : List (List Char × ForbiddenCall) → Option ForbiddenCall
  | [] => none
  | (k', v) :: rest => if k' = k then some v else dictLookup k rest

/-- `load_forbidden_calls`, parametrized by the lines of the database
file: each parsed line is inserted under its name (last wins on
duplicate names). -/
def load_forbidden_calls (dbLines : List (List Char)) :
    List (List Char × ForbiddenCall) :=
  dbLines.foldl
    (fun m line =>
      match parseRuleLine line with
      | some r => dictInsert m r.name r
      | none => m)
    []

/-! ### The callback locator's regular expressions

Each Python pattern is translated into a matcher anchored at one
position, returning the captured function name and the number of
characters the match consumes.  Greedy pieces are committed without
backtracking wherever the alternative continuation is statically
impossible; every commitment is justified next to the matcher. -/

/-- Literal string: consume `lit` or fail. -/
def litM (lit s : List Char) : Option (List Char) :=
  if lit.isPrefixOf s then some (s.drop lit.length) else none

/-- `\s+`, greedy.  Committed: every continuation in the nine patterns
resumes with a non-whitespace character (letter, `\w`, `*`, `,` or `(`),
so backtracking to a shorter whitespace run can never succeed. -/
def ws1 (s : List Char) : Option (List Char) :=
  match s with
  | [] => none
  | c :: rest => if isSpaceChar c then some (rest.dropWhile isSpaceChar) else none

/-- `(?:kw\s+)?`, greedy optional, for `kw ∈ {static, pascal}`.
Committed: when `kw` plus whitespace is present but taking it makes the
rest fail, the skipped alternative starts by reading one of
`static`/`pascal`/`void`/`OSErr` at a position where the text reads
`kw…`, which fails as well, so taking it is never wrong; when `kw` is
present without following whitespace the option cannot be taken. -/
def optKw (kw s : List Char) : Option (List Char) :=
  match litM kw s with
  | some r =>
    match ws1 r with
    | some r' => some r'
    | none => some s
  | none => some s

/-- `(?:void|OSErr)`.  The branches are committed on their distinct
first characters. -/
def altRet (s : List Char) : Option (List Char) :=
  match litM "void".toList s with
  | some r => some r
  | none => litM "OSErr".toList s

/-- One suffix-convention pattern
`(?:static\s+)?(?:pascal\s+)?(?:void|OSErr)\s+(\w+<sfx>)\s*\(`.
The group `(\w+<sfx>)` with its greedy backtracking matches exactly the
maximal word run `w` at that point: any split placing `<sfx>` strictly
inside `w` leaves a word character where `\s*\(` must match.  So the
pattern matches iff `w` is longer than `<sfx>`, ends with `<sfx>`, and
is followed by optional whitespace and `(`. -/
def matchSuffixPat (sfx s : List Char) : Option (List Char × Nat) := do
  let r1 ← optKw "static".toList s
  let r2 ← optKw "pascal".toList r1
  let r3 ← altRet r2
  let r4 ← ws1 r3
  let w := r4.takeWhile isWordChar
  if w.length > sfx.length && sfx.isSuffixOf w then
    let r5 := (r4.drop w.length).dropWhile isSpaceChar
    match r5 with
    | '(' :: r6 => some (w, s.length - r6.length)
    | _ => none
  else none

/-- One signature-convention pattern
`(?:static\s+)?pascal\s+void\s+(\w+)\s*\(\s*<tail>`, where `tail`
matches the parameter-type part after the opening parenthesis and its
optional whitespace.  `(\w+)` commits to the maximal word run for the
same reason as in `matchSuffixPat`. -/
def matchSigPat (tail : List Char → Option (List Char)) (s : List Char) :
    Option (List Char × Nat) := do
  let r1 ← optKw "static".toList s
  let r2 ← litM "pascal".toList r1
  let r3 ← ws1 r2
  let r4 ← litM "void".toList r3
  let r5 ← ws1 r4
  let w := r5.takeWhile isWordChar
  if w = [] then none
  else
    let r6 := (r5.drop w.length).dropWhile isSpaceChar
    match r6 with
    | '(' :: r7 =>
      match tail (r7.dropWhile isSpaceChar) with
      | some r8 => some (w, s.length - r8.length)
      | none => none
    | _ => none

/-- Tail of the Open Transport notifier pattern:
`void\s*\*\s*\w*\s*,\s*OTEventCode` (applied after the opening
parenthesis and its optional whitespace).  `\w*` commits to the maximal
word run: shrinking it leaves a word character where `\s*,` must
match. -/
def otTail (s : List Char) : Option (List Char) := do
  let r1 ← litM "void".toList s
  let r2 := r1.dropWhile isSpaceChar
  let r3 ← litM "*".toList r2
  let r4 := r3.dropWhile isSpaceChar
  let r5 := r4.dropWhile isWordChar
  let r6 := r5.dropWhile isSpaceChar
  let r7 ← litM ",".toList r6
  let r8 := r7.dropWhile isSpaceChar
  litM "OTEventCode".toList r8

/-- The nine patterns of `find_callback_functions`, in source order. -/
def patternMatchers : List (List Char → Option (List Char × Nat)) :=
  [ matchSuffixPat "_asr".toList,
    matchSuffixPat "_notifier".toList,
    matchSuffixPat "_completion".toList,
    matchSuffixPat "_callback".toList,
    matchSuffixPat "_event".toList,
    matchSigPat (litM "StreamPtr".toList),
    matchSigPat otTail,
    matchSigPat (litM "DSPPBPtr".toList),
    matchSigPat (litM "TPCCB".toList) ]

/-- `re.finditer`: scan positions left to right; at a match, emit
`(name, start, end)` and resume at the match end.  All nine matchers
consume at least one character, so with fuel at least the text length
the fuel-out case is unreachable (`max 1` likewise only guards the
degenerate zero-length match, which no pattern produces). -/
def finditerAux (m : List Char → Option (List Char × Nat)) :
    Nat → List Char → Nat → List (List Char × Nat × Nat)
  | 0, _, _ => []
  | _ + 1, [], _ => []
  | fuel + 1, c :: rest, p =>
    match m (c :: rest) with
    | some (nm, len) =>
      (nm, p, p + len) ::
        finditerAux m fuel (List.drop (max 1 len - 1) rest) (p + max 1 len)
    | none => finditerAux m fuel rest (p + 1)

/-- All matches of one pattern over the code. -/
def finditer (m : List Char → Option (List Char × Nat)) (code : List Char) :
    List (List Char × Nat × Nat) :=
  finditerAux m code.length code 0

/-- Index of the first `'{'` in a text, if any (`code.find("{", pos)`
relative to `pos`). -/
def firstBrace : List Char → Option Nat
  | [] => none
  | c :: rest => if c = '{' then some 0 else (firstBrace rest).map (· + 1)

/-- `code.find("{", pos)`: absolute index of the first `'{'` at or after
`pos`. -/
def findBraceFrom (code : List Char) (pos : Nat) : Option Nat :=
  (firstBrace (code.drop pos)).map (· + pos)

/-- The brace-counting loop of `find_callback_functions` (lines
118–125): starting with `brace_count = k` over the characters after the
opening brace, return (characters consumed, final count).  The loop
stops when the count reaches zero or the text ends. -/
def braceStep (c : Char) (k : Nat) : Nat :=
  if c = '{' then k + 1 else if c = '}' then k - 1 else k

def braceScanFull : List Char → Nat → Nat × Nat
  | [], k => (0, k)
  | c :: rest, k =>
    if k = 0 then (0, 0)
    else ((braceScanFull rest (braceStep c k)).1 + 1, (braceScanFull rest (braceStep c k)).2)

/-- Lines 108–128 of `find_callback_functions` for one regex match
`(name, pos, _)`: locate the first `'{'` at or after the match start
(no brace → no span), scan to the matching close, and return
`(name, start_line, end_line)` with 1-based line numbers. -/
def spanOfMatch (code : List Char) (m : List Char × Nat × Nat) :
    Option (List Char × Nat × Nat) :=
  match findBraceFrom code m.2.1 with
  | none => none
  | some q =>
    let n := (braceScanFull (code.drop (q + 1)) 1).1
    some (m.1, (code.take m.2.1).count '\n' + 1,
          (code.take (q + 1 + n)).count '\n' + 1)

/-- The span list of `find_callback_functions` before deduplication:
patterns in their fixed order, matches of each pattern in source
order. -/
def rawCallbacks (code : List Char) : List (List Char × Nat × Nat) :=
  patternMatchers.flatMap (fun m => (finditer m code).filterMap (spanOfMatch code))

/-- The deduplication loop of `find_callback_functions` (lines 130–137):
keep a span only when its name was not seen before. -/
def dedupFirstAux (seen : List (List Char)) :
    List (List Char × Nat × Nat) → List (List Char × Nat × Nat)
  | [] => []
  | cb :: rest =>
    if cb.1 ∈ seen then dedupFirstAux seen rest
    else cb :: dedupFirstAux (cb.1 :: seen) rest

/-- `find_callback_functions`: locate callback definitions, returning
`(name, start_line, end_line)` triples, deduplicated by name. -/
def find_callback_functions (code : List Char) : List (List Char × Nat × Nat) :=
  dedupFirstAux [] (rawCallbacks code)

/-- Python `enumerate`. -/
def enumerateFrom (i : Nat) : List α → List (Nat × α)
  | [] => []
  | x :: xs => (i, x) :: enumerateFrom (i + 1) xs

/-- `check_function_for_violations`: slice the callback's lines out of
the source, and for each rule (in rule-map order) and each line of the
body, emit a violation when the comment-stripped line contains the
call-site pattern. -/
def check_function_for_violations (code func_name : List Char)
    (start_line end_line : Nat) (forbidden : List (List Char × ForbiddenCall))
    (filename : List Char) : List Violation :=
  let lines := splitLines code
  let func_lines := (lines.drop (start_line - 1)).take (end_line - (start_line - 1))
  forbidden.flatMap (fun r =>
    (enumerateFrom 0 func_lines).filterMap (fun il =>
      if lineTriggers r.1 il.2 then
        some { file := filename, line := start_line + il.1,
               callback_name := func_name, forbidden_call := r.1,
               category := r.2.category, reason := r.2.reason,
               context := pyStrip il.2 }
      else none))

/-- `check_content` with the rule map already loaded (the body of
`check_content` after its call to `load_forbidden_calls`). -/
def check_content_with (forbidden : List (List Char × ForbiddenCall))
    (code filename : List Char) : List Violation :=
  (find_callback_functions code).flatMap (fun cb =>
    check_function_for_violations code cb.1 cb.2.1 cb.2.2 forbidden filename)

/-- `check_content`: load the rule database, locate callbacks, scan each
one. -/
def check_content (dbLines : List (List Char)) (code filename : List Char) :
    List Violation :=
  check_content_with (load_forbidden_calls dbLines) code filename

/-- `check_file` on an already-read file (`(name, content)`). -/
def check_file (dbLines : List (List Char)) (f : List Char × List Char) :
    List Violation :=
  check_content dbLines f.2 f.1

/-- `check_directory` over the `.c` files found by `rglob`, as
`(name, content)` pairs in visit order. -/
def check_directory (dbLines : List (List Char))
    (files : List (List Char × List Char)) : List Violation :=
  files.flatMap (check_file dbLines)

/-- Number of `load_forbidden_calls` invocations one `check_content`
call performs (the source calls it once, line 185). -/
def check_content_loadCount : Nat := 1

/-- Loads performed by `check_file` (it delegates to `check_content`). -/
def check_file_loadCount : Nat := check_content_loadCount

/-- Loads performed by `check_directory`: one `check_file` per file. -/
def check_directory_loadCount (files : List (List Char × List Char)) : Nat :=
  (files.map (fun _ => check_file_loadCount)).sum

/-- The filesystem facts `main` depends on: whether the rule database
exists, its lines when it does. -/
structure Env where
  dbExists : Bool
  dbLines : List (List Char)

/-- What the scan target resolves to: an existing file (with content),
an existing directory (with its `.c` files), or nothing. -/
inductive PathState where
  | isFile (content : List Char)
  | isDir (files : List (List Char × List Char))
  | absent
deriving DecidableEq

/-- `check_content` as run inside `main`: `load_forbidden_calls` calls
`sys.exit(2)` when the database file is missing. -/
def check_content_run (env : Env) (code filename : List Char) :
    Except Nat (List Violation) :=
  if env.dbExists then .ok (check_content env.dbLines code filename)
  else .error 2

/-- `check_directory` as run inside `main`: files scanned in order,
results concatenated; the first scan aborts the run when the database is
missing — so over zero files no load happens and no abort can happen. -/
def check_directory_run (env : Env) : List (List Char × List Char) →
    Except Nat (List Violation)
  | [] => .ok []
  | f :: fs =>
    match check_content_run env f.2 f.1 with
    | .error e => .error e
    | .ok vs =>
      match check_directory_run env fs with
      | .error e => .error e
      | .ok vs' => .ok (vs ++ vs')

/-- `main` on a target path (lines 285–293 and 313–314): missing target
exits 2 before anything is loaded; otherwise the file or directory is
scanned and the run exits 1 when violations were found, 0 otherwise.
Returns (exit code, violations reported). -/
def runTarget (env : Env) (name : List Char) (st : PathState) :
    Nat × List Violation :=
  match st with
  | .absent => (2, [])
  | .isFile c =>
    match check_content_run env c name with
    | .error e => (e, [])
    | .ok vs => (if vs = [] then 0 else 1, vs)
  | .isDir files =>
    match check_directory_run env files with
    | .error e => (e, [])
    | .ok vs => (if vs = [] then 0 else 1, vs)

/-- Well-nested brace text at depth `d`: every `'}'` has a matching
earlier `'{'` and the depth returns to zero at the end.  Used to state
which texts the lexical brace scanner bounds correctly. -/
def dyck : List Char → Nat → Bool
  | [], d => d = 0
  | c :: rest, d =>
    if c = '{' then dyck rest (d + 1)
    else if c = '}' then (decide (0 < d)) && dyck rest (d - 1)
    else dyck rest d



/-- The rule database of the end-to-end example (spec §8.8). -/
def c1db : List (List Char) :=
  ["BlockMove|memory_ops|Unsafe to call during interrupt time".toList]

/-- The source content of the end-to-end example (spec §8.8). -/
def c1code : List Char :=
  "pascal void myHandler_asr(StreamPtr p) \x7b BlockMove(a, b, 10); \x7d".toList

/-- Two callbacks where source order and pattern order disagree:
`alpha` (line 1) is found only by the `StreamPtr` signature pattern,
`beta_asr` (line 4) only by the `_asr` suffix pattern, which is tried
first. -/
def c2code : List Char :=
  "pascal void alpha(StreamPtr p)\n\x7b\n\x7d\nvoid beta_asr(void)\n\x7b\n\x7d".toList

/-- The single expected violation of the end-to-end example. -/
def c1vio : Violation :=
  { file := "<stdin>".toList, line := 1,
    callback_name := "myHandler_asr".toList,
    forbidden_call := "BlockMove".toList,
    category := "memory_ops".toList,
    reason := "Unsafe to call during interrupt time".toList,
    context := c1code }

/-! ## Theorems -/

theorem dropToClose_length : ∀ (s r : List Char), dropToClose s = some r →
    r.length < s.length := by
  intro s
  induction s with
  | nil => intro r h; simp [dropToClose] at h
  | cons c rest ih =>
    intro r h
    rw [dropToClose] at h
    by_cases hc : (c = '*' && rest.head? == some '/') = true
    · rw [if_pos hc] at h
      cases h
      cases rest with
      | nil => simp at hc
      | cons d t => simp [List.length_cons]; omega
    · rw [if_neg hc] at h
      have := ih r h
      simp [List.length_cons]; omega

theorem removeBlockFuel_irrel : ∀ (f1 f2 : Nat) (s : List Char),
    s.length ≤ f1 → s.length ≤ f2 → removeBlockFuel f1 s = removeBlockFuel f2 s := by
  intro f1
  induction f1 with
  | zero =>
    intro f2 s h1 _
    have : s = [] := by cases s <;> simp_all
    subst this
    cases f2 <;> rfl
  | succ f1 ih =>
    intro f2 s h1 h2
    cases s with
    | nil => cases f2 <;> rfl
    | cons c rest =>
      cases f2 with
      | zero => simp at h2
      | succ g =>
        rw [removeBlockFuel, removeBlockFuel]
        by_cases hc : (c = '/' && rest.head? == some '*') = true
        · rw [if_pos hc, if_pos hc]
          cases hd : dropToClose rest.tail with
          | none => rfl
          | some r' =>
            have hlt := dropToClose_length _ _ hd
            have htl : rest.tail.length ≤ rest.length := by cases rest <;> simp
            simp only [List.length_cons] at h1 h2
            exact ih g r' (by omega) (by omega)
        · rw [if_neg hc, if_neg hc]
          simp only [List.length_cons] at h1 h2
          rw [ih g rest (by omega) (by omega)]

/-- The intended recursion of `removeBlockComments`, recovered from the
fuelled worker. -/
theorem removeBlockComments_cons (c : Char) (rest : List Char) :
    removeBlockComments (c :: rest) =
      if c = '/' && rest.head? == some '*' then
        match dropToClose rest.tail with
        | some r' => removeBlockComments r'
        | none => c :: rest
      else c :: removeBlockComments rest := by
  show removeBlockFuel (rest.length + 1) (c :: rest) = _
  rw [removeBlockFuel]
  by_cases hc : (c = '/' && rest.head? == some '*') = true
  · rw [if_pos hc, if_pos hc]
    cases hd : dropToClose rest.tail with
    | none => rfl
    | some r' =>
      have hlt := dropToClose_length _ _ hd
      have htl : rest.tail.length ≤ rest.length := by cases rest <;> simp
      exact removeBlockFuel_irrel _ _ _ (by omega) (by omega)
  · rw [if_neg hc, if_neg hc]
    rfl



/-- C1: with the rule map containing exactly the `BlockMove` rule, the
content-mode scan of the example source returns exactly one Violation:
callback `myHandler_asr`, forbidden call `BlockMove`, category
`memory_ops`, the rule's reason, and line 1 — the (only) line, which
contains the `BlockMove` call. -/
theorem c1_end_to_end :
    check_content c1db c1code "<stdin>".toList = [c1vio] := by
  decide

theorem dedupFirstAux_sublist (l : List (List Char × Nat × Nat)) :
    ∀ seen, (dedupFirstAux seen l).Sublist l := by
  induction l with
  | nil => intro seen; simp [dedupFirstAux]
  | cons cb rest ih =>
    intro seen
    rw [dedupFirstAux]
    by_cases h : cb.1 ∈ seen
    · rw [if_pos h]
      exact (ih seen).cons cb
    · rw [if_neg h]
      exact (ih (cb.1 :: seen)).cons₂ cb

theorem dedupFirstAux_nodup (l : List (List Char × Nat × Nat)) :
    ∀ seen, ((dedupFirstAux seen l).map (fun cb => cb.1)).Nodup ∧
      ∀ cb ∈ dedupFirstAux seen l, cb.1 ∉ seen := by
  induction l with
  | nil => intro seen; simp [dedupFirstAux]
  | cons cb rest ih =>
    intro seen
    rw [dedupFirstAux]
    by_cases h : cb.1 ∈ seen
    · rw [if_pos h]
      exact ih seen
    · rw [if_neg h]
      refine ⟨?_, ?_⟩
      · rw [List.map_cons, List.nodup_cons]
        refine ⟨?_, (ih (cb.1 :: seen)).1⟩
        intro hmem
        rcases List.mem_map.mp hmem with ⟨x, hx, hx1⟩
        exact (ih (cb.1 :: seen)).2 x hx (hx1 ▸ List.mem_cons_self _ _)
      · intro x hx
        rcases List.mem_cons.mp hx with rfl | hx'
        · exact h
        · intro hs
          exact (ih (cb.1 :: seen)).2 x hx' (List.mem_cons_of_mem _ hs)

theorem dedupFirstAux_complete (l : List (List Char × Nat × Nat)) :
    ∀ seen, ∀ cb ∈ l, cb.1 ∈ seen ∨
      cb.1 ∈ (dedupFirstAux seen l).map (fun cb => cb.1) := by
  induction l with
  | nil => intro seen cb h; simp at h
  | cons hd rest ih =>
    intro seen cb hmem
    rw [dedupFirstAux]
    by_cases h : hd.1 ∈ seen
    · rw [if_pos h]
      rcases List.mem_cons.mp hmem with rfl | hmem'
      · exact Or.inl h
      · exact ih seen cb hmem'
    · rw [if_neg h]
      rcases List.mem_cons.mp hmem with rfl | hmem'
      · exact Or.inr (by simp)
      · rcases ih (hd.1 :: seen) cb hmem' with hs | hm
        · rcases List.mem_cons.mp hs with heq | hs'
          · exact Or.inr (by rw [List.map_cons]; exact heq ▸ List.mem_cons_self _ _)
          · exact Or.inl hs'
        · exact Or.inr (by rw [List.map_cons]; exact List.mem_cons_of_mem _ hm)

theorem dedupFirstAux_find (l : List (List Char × Nat × Nat)) :
    ∀ (seen : List (List Char)) (cb : List Char × Nat × Nat),
      cb ∈ dedupFirstAux seen l →
      cb.1 ∉ seen ∧ List.find? (fun x => x.1 == cb.1) l = some cb := by
  induction l with
  | nil => intro seen cb h; simp [dedupFirstAux] at h
  | cons hd rest ih =>
    intro seen cb h
    rw [dedupFirstAux] at h
    by_cases hs : hd.1 ∈ seen
    · rw [if_pos hs] at h
      obtain ⟨hns, hf⟩ := ih seen cb h
      have hne : hd.1 ≠ cb.1 := fun he => hns (he ▸ hs)
      refine ⟨hns, ?_⟩
      rw [List.find?_cons_of_neg, hf]
      simp [hne]
    · rw [if_neg hs] at h
      rcases List.mem_cons.mp h with rfl | h'
      · refine ⟨hs, ?_⟩
        rw [List.find?_cons_of_pos]
        simp
      · obtain ⟨hns, hf⟩ := ih (hd.1 :: seen) cb h'
        have hne : hd.1 ≠ cb.1 := fun he => hns (he ▸ List.mem_cons_self _ _)
        refine ⟨fun hc => hns (List.mem_cons_of_mem _ hc), ?_⟩
        rw [List.find?_cons_of_neg, hf]
        simp [hne]

/-- C2 counterexample: on `c2code` the locator returns the `_asr`-pattern
match `beta_asr` (line 4) before the `StreamPtr`-pattern match `alpha`
(line 1), so the returned sequence does not preserve source order. -/
theorem c2_counterexample :
    find_callback_functions c2code =
      [("beta_asr".toList, 4, 6), ("alpha".toList, 1, 3)] ∧
    ¬ ((find_callback_functions c2code).map (fun cb => cb.2.1)).Sorted (· ≤ ·) := by
  constructor
  · decide
  · decide

/-- C2 as amended: the locator returns exactly one span per distinct
detected callback name — its name list has no duplicates, it is a
subsequence of the pattern-major match list `rawCallbacks` (patterns in
their fixed order, matches of each pattern in source order; this
traversal order, not source order, is what the result preserves), every
detected name is represented, and each surviving span is the *first*
span of its name in that traversal order (`find?` on `rawCallbacks`
returns exactly it). -/
theorem c2_locator_dedup (code : List Char) :
    ((find_callback_functions code).map (fun cb => cb.1)).Nodup ∧
    (find_callback_functions code).Sublist (rawCallbacks code) ∧
    (∀ cb ∈ rawCallbacks code,
      cb.1 ∈ (find_callback_functions code).map (fun cb => cb.1)) ∧
    (∀ cb ∈ find_callback_functions code,
      (rawCallbacks code).find? (fun x => x.1 == cb.1) = some cb) := by
  refine ⟨(dedupFirstAux_nodup _ []).1, dedupFirstAux_sublist _ [], ?_, ?_⟩
  · intro cb hmem
    rcases dedupFirstAux_complete _ [] cb hmem with hs | hm
    · simp at hs
    · exact hm
  · intro cb hmem
    exact (dedupFirstAux_find _ [] cb hmem).2

/-- C2 witness: on `c2code`, `alpha` — found by the signature pattern —
is represented in the deduplicated result, and the span kept for the
name `alpha` is the first `alpha` span of the traversal. -/
theorem c2_witness :
    ("alpha".toList, 1, 3) ∈ rawCallbacks c2code ∧
    ("alpha".toList : List Char) ∈
      (find_callback_functions c2code).map (fun cb => cb.1) ∧
    (rawCallbacks c2code).find? (fun x => x.1 == "alpha".toList) =
      some ("alpha".toList, 1, 3) :=
  ⟨by decide, (c2_locator_dedup c2code).2.2.1 ("alpha".toList, 1, 3) (by decide),
   (c2_locator_dedup c2code).2.2.2 ("alpha".toList, 1, 3) (by decide)⟩


theorem splitOnChar_ne_nil (sep : Char) (s : List Char) : splitOnChar sep s ≠ [] := by
  cases s with
  | nil => simp [splitOnChar]
  | cons c rest =>
    rw [splitOnChar]
    split
    · simp
    · split <;> simp

theorem numLines_eq (code : List Char) : numLines code = code.count '\n' + 1 := by
  unfold numLines splitLines
  induction code with
  | nil => simp [splitOnChar]
  | cons c rest ih =>
    rw [splitOnChar]
    split
    · next heq => exact absurd heq (splitOnChar_ne_nil _ _)
    · next hd t heq =>
      rw [heq] at ih
      by_cases hc : c = '\n'
      · rw [if_pos hc]
        simp only [List.length_cons] at ih ⊢
        subst hc
        rw [List.count_cons]
        simp only [beq_self_eq_true, if_true]
        omega
      · rw [if_neg hc]
        simp only [List.length_cons] at ih ⊢
        rw [List.count_cons]
        simp only [beq_iff_eq]
        rw [if_neg hc]
        omega

theorem braceScanFull_zero (s : List Char) : braceScanFull s 0 = (0, 0) := by
  cases s with
  | nil => rfl
  | cons c rest => rfl

theorem braceScanFull_fst_le (s : List Char) : ∀ k, (braceScanFull s k).1 ≤ s.length := by
  induction s with
  | nil => intro k; simp [braceScanFull]
  | cons c rest ih =>
    intro k
    rw [braceScanFull]
    by_cases hk : k = 0
    · rw [if_pos hk]; simp
    · rw [if_neg hk]
      simp only [List.length_cons]
      have := ih (braceStep c k)
      omega

theorem braceScanFull_unbalanced (s : List Char) :
    ∀ k, (braceScanFull s k).2 ≠ 0 → (braceScanFull s k).1 = s.length := by
  induction s with
  | nil => intro k _; simp [braceScanFull]
  | cons c rest ih =>
    intro k h
    rw [braceScanFull] at h ⊢
    by_cases hk : k = 0
    · rw [if_pos hk] at h; simp at h
    · rw [if_neg hk] at h ⊢
      simp only [List.length_cons]
      have := ih (braceStep c k) (by simpa using h)
      omega

theorem firstBrace_none (s : List Char) (h : '{' ∉ s) : firstBrace s = none := by
  induction s with
  | nil => rfl
  | cons c rest ih =>
    rw [firstBrace]
    rw [List.mem_cons, not_or] at h
    rw [if_neg (fun hc => h.1 hc.symm), ih h.2]
    rfl

theorem firstBrace_append (gap : List Char) (rest : List Char) (h : '{' ∉ gap) :
    firstBrace (gap ++ '{' :: rest) = some gap.length := by
  induction gap with
  | nil => simp [firstBrace]
  | cons c g ih =>
    rw [List.mem_cons, not_or] at h
    rw [List.cons_append, firstBrace, if_neg (fun hc => h.1 hc.symm), ih h.2]
    rfl

theorem firstBrace_lt (s : List Char) : ∀ i, firstBrace s = some i → i < s.length := by
  induction s with
  | nil => intro i h; simp [firstBrace] at h
  | cons c rest ih =>
    intro i h
    rw [firstBrace] at h
    by_cases hc : c = '{'
    · rw [if_pos hc] at h
      cases h
      simp
    · rw [if_neg hc] at h
      cases hf : firstBrace rest with
      | none => rw [hf] at h; simp at h
      | some j =>
        rw [hf] at h
        simp only [Option.map_some'] at h
        cases h
        have := ih j hf
        simp only [List.length_cons]
        omega

/-- Running the brace counter over a well-nested segment `b` from a
positive count `d + 1` consumes all of `b` without reaching zero and
continues into the tail with the same count. -/
theorem dyck_scan (b : List Char) :
    ∀ (d : Nat) (tail : List Char), dyck b d = true →
      braceScanFull (b ++ tail) (d + 1) =
        ((braceScanFull tail 1).1 + b.length, (braceScanFull tail 1).2) := by
  induction b with
  | nil =>
    intro d tail hd
    rw [dyck] at hd
    simp only [decide_eq_true_eq] at hd
    subst hd
    simp
  | cons c b' ih =>
    intro d tail hd
    rw [dyck] at hd
    rw [List.cons_append, braceScanFull, if_neg (by omega : ¬ d + 1 = 0)]
    unfold braceStep
    by_cases hob : c = '{'
    · rw [if_pos hob] at hd ⊢
      rw [ih (d + 1) tail hd]
      simp only [List.length_cons, Prod.mk.injEq]
      exact ⟨by omega, trivial⟩
    · rw [if_neg hob] at hd ⊢
      by_cases hcb : c = '}'
      · rw [if_pos hcb] at hd ⊢
        rw [Bool.and_eq_true, decide_eq_true_eq] at hd
        obtain ⟨hdpos, hd'⟩ := hd
        have hrw : d + 1 - 1 = (d - 1) + 1 := by omega
        rw [hrw, ih (d - 1) tail hd']
        simp only [List.length_cons, Prod.mk.injEq]
        exact ⟨by omega, trivial⟩
      · rw [if_neg hcb] at hd ⊢
        rw [ih d tail hd]
        simp only [List.length_cons, Prod.mk.injEq]
        exact ⟨by omega, trivial⟩

/-- C10: the locator's brace scan never advances past the end of the
text; a candidate with no opening brace after the match position yields
no span; and when the opening brace is never balanced the scan consumes
the whole remaining text and the span is still produced, with `end_line`
equal to the number of the last line of the source. -/
theorem c10_brace_termination :
    (∀ (s : List Char) (k : Nat), (braceScanFull s k).1 ≤ s.length) ∧
    (∀ (code : List Char) (m : List Char × Nat × Nat),
      '{' ∉ code.drop m.2.1 → spanOfMatch code m = none) ∧
    (∀ (code : List Char) (m : List Char × Nat × Nat) (q : Nat),
      findBraceFrom code m.2.1 = some q →
      (braceScanFull (code.drop (q + 1)) 1).2 ≠ 0 →
      spanOfMatch code m =
        some (m.1, (code.take m.2.1).count '\n' + 1, numLines code)) := by
  refine ⟨braceScanFull_fst_le, ?_, ?_⟩
  · intro code m h
    unfold spanOfMatch findBraceFrom
    rw [firstBrace_none _ h]
    rfl
  · intro code m q hq hunb
    have hq' : q < code.length := by
      unfold findBraceFrom at hq
      cases hf : firstBrace (code.drop m.2.1) with
      | none => rw [hf] at hq; simp at hq
      | some i =>
        rw [hf] at hq
        simp only [Option.map_some'] at hq
        cases hq
        have h1 := firstBrace_lt _ i hf
        rw [List.length_drop] at h1
        omega
    have hn : (braceScanFull (code.drop (q + 1)) 1).1 = code.length - (q + 1) := by
      rw [braceScanFull_unbalanced _ 1 hunb, List.length_drop]
    unfold spanOfMatch
    rw [hq]
    simp only [Option.some.injEq, Prod.mk.injEq, true_and]
    rw [hn]
    have : q + 1 + (code.length - (q + 1)) = code.length := by omega
    rw [this, List.take_length, numLines_eq]

/-- C10 witness: a candidate with no brace at all yields no span; a
candidate whose opening brace is never closed still yields a span whose
`end_line` is the last line (line 3 of 3). -/
theorem c10_witness :
    spanOfMatch "void g_asr(x);".toList ("g_asr".toList, 0, 11) = none ∧
    spanOfMatch "void f_asr()\n\x7b\n x(;".toList ("f_asr".toList, 0, 11) =
      some ("f_asr".toList, 1, 3) := by
  constructor
  · exact c10_brace_termination.2.1 _ _ (by decide)
  · have h := c10_brace_termination.2.2 "void f_asr()\n\x7b\n x(;".toList
      ("f_asr".toList, 0, 11) 13 (by decide) (by decide)
    rw [h]
    decide

theorem braceScanFull_close (rest : List Char) : braceScanFull ('}' :: rest) 1 = (1, 0) := by
  rw [braceScanFull, if_neg (by omega : ¬ (1 : Nat) = 0)]
  have hb : braceStep '}' 1 = 0 := by decide
  rw [hb, braceScanFull_zero]

/-- C3: for a candidate match at `pos` whose remaining text decomposes
as `gap ++ '\x7b' :: body ++ '\x7d' :: rest` with no opening brace in
`gap` and with `body` well nested, the span is computed by locating the
first opening brace after the match position and scanning to its
matching closing brace: `start_line` is the 1-based line of the match
position, and `end_line` is the 1-based line of the matching closing
brace — nested blocks inside `body` do not end the span. -/
theorem c3_brace_extent (code gap body rest nm : List Char) (pos endp : Nat)
    (hdrop : code.drop pos = gap ++ '{' :: (body ++ '}' :: rest))
    (hgap : '{' ∉ gap) (hbody : dyck body 0 = true) :
    spanOfMatch code (nm, pos, endp) =
      some (nm, (code.take pos).count '\n' + 1,
        (code.take pos).count '\n' + gap.count '\n' + body.count '\n' + 1) := by
  have hfb : findBraceFrom code pos = some (gap.length + pos) := by
    unfold findBraceFrom
    rw [hdrop, firstBrace_append _ _ hgap]
    rfl
  have hdrop2 : code.drop (gap.length + pos + 1) = body ++ '}' :: rest := by
    have h1 : code.drop (gap.length + pos + 1) = (code.drop pos).drop (gap.length + 1) := by
      rw [List.drop_drop]
      congr 1
      omega
    rw [h1, hdrop,
      show gap ++ '{' :: (body ++ '}' :: rest) = (gap ++ ['{']) ++ (body ++ '}' :: rest) by simp,
      show gap.length + 1 = (gap ++ ['{']).length by simp]
    exact List.drop_left _ _
  have hscan : (braceScanFull (code.drop (gap.length + pos + 1)) 1).1 = body.length + 1 := by
    rw [hdrop2]
    have hds := dyck_scan body 0 ('}' :: rest) hbody
    simp only [Nat.zero_add] at hds
    rw [hds, braceScanFull_close]
    show 1 + body.length = body.length + 1
    omega
  have htake : code.take (gap.length + pos + 1 + (body.length + 1)) =
      code.take pos ++ (gap ++ '{' :: (body ++ ['}'])) := by
    rw [show gap.length + pos + 1 + (body.length + 1) = pos + (gap.length + (body.length + 2)) by omega,
      List.take_add, hdrop]
    congr 1
    rw [List.take_add, List.take_left, List.drop_left]
    congr 1
    rw [show body.length + 2 = (body.length + 1) + 1 by omega, List.take_succ_cons]
    congr 1
    rw [show body.length + 1 = body.length + 1 by rfl, List.take_add, List.take_left, List.drop_left,
      List.take_succ_cons, List.take_zero]
  unfold spanOfMatch
  rw [hfb]
  show some (nm, (code.take pos).count '\n' + 1,
      (code.take (gap.length + pos + 1 +
        (braceScanFull (code.drop (gap.length + pos + 1)) 1).1)).count '\n' + 1) = _
  rw [hscan, htake]
  have hob : ('{' :: (body ++ ['}'])).count '\n' = (body ++ ['}']).count '\n' := by
    rw [List.count_cons]
    simp
  have hcb : (['}'] : List Char).count '\n' = 0 := by decide
  have hc : (code.take pos ++ (gap ++ '{' :: (body ++ ['}']))).count '\n' =
      (code.take pos).count '\n' + gap.count '\n' + body.count '\n' := by
    rw [List.count_append, List.count_append, hob, List.count_append, hcb]
    omega
  rw [hc]

/-- C3 witness: a callback whose body contains a nested brace block is
bounded by its own closing brace (line 4), not the inner block's
(line 3). -/
theorem c3_witness :
    spanOfMatch "f_asr()\n\x7b\n if (x) \x7b y(); \x7d\n\x7d tail".toList
      ("f_asr".toList, 0, 7) = some ("f_asr".toList, 1, 4) := by
  have h := c3_brace_extent "f_asr()\n\x7b\n if (x) \x7b y(); \x7d\n\x7d tail".toList
    "f_asr()\n".toList "\n if (x) \x7b y(); \x7d\n".toList " tail".toList
    "f_asr".toList 0 7 (by decide) (by decide) (by decide)
  rw [h]
  decide

theorem splitLineComment_id (s : List Char) (h : hasDSlash s = false) :
    splitLineComment s = s := by
  induction s with
  | nil => rfl
  | cons c rest ih =>
    rw [hasDSlash, Bool.or_eq_false_iff] at h
    rw [splitLineComment, if_neg (by simp [h.1]), ih h.2]

theorem splitLineComment_append (a b : List Char) (h : hasDSlash a = false)
    (hl : a.getLast? ≠ some '/') :
    splitLineComment (a ++ '/' :: '/' :: b) = a := by
  induction a with
  | nil =>
    rw [List.nil_append, splitLineComment, if_pos (by simp)]
  | cons c a' ih =>
    rw [hasDSlash, Bool.or_eq_false_iff] at h
    rw [List.cons_append, splitLineComment]
    cases a' with
    | nil =>
      have hc : c ≠ '/' := by
        intro hc
        exact hl (by rw [hc]; rfl)
      rw [if_neg (by simp [hc]), List.nil_append, splitLineComment, if_pos (by simp)]
    | cons d a'' =>
      have hnot : ¬ (c = '/' ∧ d = '/') := by
        intro hcd
        have h1 := h.1
        rw [hcd.1, hcd.2] at h1
        simp at h1
      rw [if_neg (by simp; exact fun hc hd => hnot ⟨hc, hd⟩), ih h.2 (by simpa using hl)]
      
theorem dropToClose_append (mid b : List Char) (h : hasClose mid = false) :
    dropToClose (mid ++ '*' :: '/' :: b) = some b := by
  induction mid with
  | nil =>
    rw [List.nil_append, dropToClose, if_pos (by simp)]
    rfl
  | cons c mid' ih =>
    rw [hasClose, Bool.or_eq_false_iff] at h
    rw [List.cons_append, dropToClose]
    cases mid' with
    | nil =>
      rw [if_neg (by simp), List.nil_append, dropToClose, if_pos (by simp)]
      rfl
    | cons d mid'' =>
      have hnot : ¬ (c = '*' ∧ d = '/') := by
        intro hcd
        have h1 := h.1
        rw [hcd.1, hcd.2] at h1
        simp at h1
      rw [if_neg (by simp; exact fun hc hd => hnot ⟨hc, hd⟩), ih h.2]

theorem removeBlockComments_append (a : List Char) :
    ∀ b, hasOpenC a = false → (a.getLast? = some '/' → b.head? ≠ some '*') →
      removeBlockComments (a ++ b) = a ++ removeBlockComments b := by
  induction a with
  | nil => intro b _ _; rfl
  | cons c a' ih =>
    intro b h hb
    rw [hasOpenC, Bool.or_eq_false_iff] at h
    rw [List.cons_append, removeBlockComments_cons]
    cases a' with
    | nil =>
      by_cases hc : c = '/'
      · have hbb : b.head? ≠ some '*' := hb (by rw [hc]; rfl)
        rw [if_neg (by simp [hc]; intro h'; exact absurd h' hbb)]
        rfl
      · rw [if_neg (by simp [hc])]
        rfl
    | cons d a'' =>
      have hnot : ¬ (c = '/' ∧ d = '*') := by
        intro hcd
        have h1 := h.1
        rw [hcd.1, hcd.2] at h1
        simp at h1
      rw [if_neg (by simp; exact fun hc hd => hnot ⟨hc, hd⟩)]
      rw [ih b h.2 (by simpa using hb)]
      rfl

/-- C4: comment suppression.  First part: on a line `a ++ "//" ++ b`
(first line-comment marker at the end of `a`), whether the scanner's
per-line test fires is decided by the comment-stripped text `a` alone —
anything after `//`, in particular a forbidden identifier, is ignored,
while the text before the marker is still scanned.  Second part: a block
comment `/* mid */` contained entirely within the line is removed
entirely, so an identifier occurring only inside it produces no
violation, while the surrounding text `a ++ b` is still scanned. -/
theorem c4_comment_stripping :
    (∀ (a b n : List Char), hasDSlash a = false → a.getLast? ≠ some '/' →
      lineTriggers n (a ++ '/' :: '/' :: b) = searchCall n (removeBlockComments a)) ∧
    (∀ (a mid b n : List Char),
      hasDSlash (a ++ '/' :: '*' :: (mid ++ '*' :: '/' :: b)) = false →
      hasOpenC a = false → hasClose mid = false →
      lineTriggers n (a ++ '/' :: '*' :: (mid ++ '*' :: '/' :: b)) =
        searchCall n (a ++ removeBlockComments b)) := by
  constructor
  · intro a b n h hl
    unfold lineTriggers
    rw [splitLineComment_append a b h hl]
  · intro a mid b n hds ho hc
    unfold lineTriggers
    rw [splitLineComment_id _ hds]
    rw [removeBlockComments_append a _ ho (by intro _ hh; simp at hh)]
    rw [removeBlockComments_cons]
    rw [if_pos (by simp)]
    have ht : ('*' :: (mid ++ '*' :: '/' :: b)).tail = mid ++ '*' :: '/' :: b := rfl
    rw [ht, dropToClose_append mid b hc]

/-- C4 witness: `BlockMove` occurring only behind `//` does not fire the
per-line test; with the identifier only in a block comment the line is
equivalent to the line with the comment removed. -/
theorem c4_witness :
    (lineTriggers "BlockMove".toList "x = 1; // BlockMove(y)".toList =
      searchCall "BlockMove".toList (removeBlockComments "x = 1; ".toList)) ∧
    lineTriggers "BlockMove".toList "x = 1; // BlockMove(y)".toList = false := by
  have h := c4_comment_stripping.1 "x = 1; ".toList " BlockMove(y)".toList
    "BlockMove".toList (by decide) (by decide)
  constructor
  · exact h
  · rw [show "x = 1; // BlockMove(y)".toList =
      "x = 1; ".toList ++ '/' :: '/' :: " BlockMove(y)".toList by decide]
    rw [h]
    decide

theorem word_not_space (x : Char) (hw : isWordChar x = true) : isSpaceChar x = false := by
  cases hsp : isSpaceChar x with
  | false => rfl
  | true =>
    exfalso
    unfold isSpaceChar at hsp
    simp only [Bool.or_eq_true, decide_eq_true_eq] at hsp
    rcases hsp with (((((h | h) | h) | h) | h) | h) <;> (subst h; revert hw; decide)

theorem listAny_congr {α : Type} {p q : α → Bool} :
    ∀ l : List α, (∀ x ∈ l, p x = q x) → l.any p = l.any q := by
  intro l
  induction l with
  | nil => intro _; rfl
  | cons x xs ih =>
    intro h
    rw [List.any_cons, List.any_cons, h x (List.mem_cons_self _ _),
      ih (fun y hy => h y (List.mem_cons_of_mem _ hy))]

theorem callPatternAt_eq_spec (c : Char) (n l : List Char) (i : Nat)
    (hw : isWordChar c = true) :
    callPatternAt (c :: n) l i = specWholeIdentAt (c :: n) l i := by
  unfold callPatternAt specWholeIdentAt
  by_cases hp : List.isPrefixOf (c :: n) (l.drop i) = true
  · have hd : (l.drop i).head? = some c := by
      cases hld : l.drop i with
      | nil => rw [hld] at hp; simp [List.isPrefixOf] at hp
      | cons x t =>
        rw [hld] at hp
        simp only [List.isPrefixOf, Bool.and_eq_true, beq_iff_eq] at hp
        simp [hp.1]
    rw [hp, hd]
    have hbound : wordB (l.take i).getLast? (some c) =
        (match (l.take i).getLast? with | none => true | some x => !isWordChar x) := by
      cases (l.take i).getLast? with
      | none => simp [wordB, hw]
      | some x =>
        simp only [wordB, hw]
        cases isWordChar x <;> rfl
    rw [hbound]
    cases hT : (l.drop i).drop (c :: n).length with
    | nil => simp
    | cons x t =>
      by_cases hx : isWordChar x = true
      · have hs : isSpaceChar x = false := word_not_space x hx
        have hxp : (x == '(') = false := by
          cases hxe : x == '(' with
          | false => rfl
          | true =>
            exfalso
            have : x = '(' := by simpa using hxe
            subst this
            revert hx
            decide
        simp [List.dropWhile_cons, hs, hx, hxp]
      · simp [hx]
  · have hp' : (c :: n).isPrefixOf (l.drop i) = false := by
      cases hb : (c :: n).isPrefixOf (l.drop i) with
      | false => rfl
      | true => exact absurd hb hp
    rw [hp']
    simp

/-- C5 (amended): for every rule name that begins with an identifier
character, the scanner's per-line test fires on a line exactly when the
name occurs on the comment-stripped line as a whole identifier
immediately followed by optional whitespace and an opening parenthesis
(`specWholeIdent`, written from the claim's words). -/
theorem c5_whole_ident (c : Char) (n line : List Char) (hw : isWordChar c = true) :
    lineTriggers (c :: n) line =
      specWholeIdent (c :: n) (removeBlockComments (splitLineComment line)) := by
  unfold lineTriggers searchCall specWholeIdent
  exact listAny_congr _ (fun i _ => callPatternAt_eq_spec c n _ i hw)

/-- C5 counterexample: the loadable rule name `+` does not begin with an
identifier character; on the line `a+ (` the scanner's per-line test
fires although `+` is preceded by the identifier character `a`, so the
claim's whole-identifier condition is false while a violation is
emitted. -/
theorem c5_counterexample :
    parseRuleLine "+|misc|no operator calls".toList =
      some ⟨"+".toList, "misc".toList, "no operator calls".toList⟩ ∧
    lineTriggers "+".toList "a+ (".toList = true ∧
    specWholeIdent "+".toList
      (removeBlockComments (splitLineComment "a+ (".toList)) = false :=
  ⟨by decide, by decide, by decide⟩

/-- C5 witness (for the amended claim): a word-initial rule name on a
concrete line. -/
theorem c5_witness :
    lineTriggers "BlockMove".toList "  BlockMove (x); // done".toList =
      specWholeIdent "BlockMove".toList
        (removeBlockComments (splitLineComment "  BlockMove (x); // done".toList)) :=
  c5_whole_ident 'B' "lockMove".toList "  BlockMove (x); // done".toList (by decide)

theorem dictLookup_insert (k : List Char) (v : ForbiddenCall) :
    ∀ m, dictLookup k (dictInsert m k v) = some v := by
  intro m
  induction m with
  | nil => simp [dictInsert, dictLookup]
  | cons p rest ih =>
    obtain ⟨k', v'⟩ := p
    rw [dictInsert]
    by_cases h : k' = k
    · rw [if_pos h, dictLookup, if_pos rfl]
    · rw [if_neg h, dictLookup, if_neg h, ih]

theorem check_directory_run_err (env : Env) (h : env.dbExists = false)
    (f : List Char × List Char) (fs : List (List Char × List Char)) :
    check_directory_run env (f :: fs) = .error 2 := by
  rw [check_directory_run]
  unfold check_content_run
  rw [h]
  rfl

/-- C6 counterexample: with the rule database missing, a directory-mode
run over a directory containing zero `.c` files never performs a load
and exits 0 with no violations — it does not abort with exit code 2. -/
theorem c6_counterexample :
    runTarget ⟨false, []⟩ "d".toList (PathState.isDir []) = (0, []) := by
  rfl

theorem dictLookup_insert_ne (k k' : List Char) (v : ForbiddenCall) (hne : k' ≠ k) :
    ∀ m, dictLookup k (dictInsert m k' v) = dictLookup k m := by
  intro m
  induction m with
  | nil => simp [dictInsert, dictLookup, if_neg hne]
  | cons p rest ih =>
    obtain ⟨k'', v''⟩ := p
    rw [dictInsert]
    by_cases h2 : k'' = k'
    · rw [if_pos h2, dictLookup, if_neg hne, dictLookup,
        if_neg (by rw [h2]; exact hne)]
    · rw [if_neg h2, dictLookup, dictLookup]
      by_cases h3 : k'' = k
      · rw [if_pos h3, if_pos h3]
      · rw [if_neg h3, if_neg h3, ih]

theorem load_fold_preserve (ys : List (List Char)) :
    ∀ (acc : List (List Char × ForbiddenCall)) (k : List Char) (v : ForbiddenCall),
      dictLookup k acc = some v →
      (∀ l' ∈ ys, ∀ r', parseRuleLine l' = some r' → r'.name ≠ k) →
      dictLookup k (ys.foldl (fun m line =>
        match parseRuleLine line with
        | some r => dictInsert m r.name r
        | none => m) acc) = some v := by
  induction ys with
  | nil => intro acc k v h _; exact h
  | cons l' ys' ih =>
    intro acc k v h hys
    rw [List.foldl_cons]
    apply ih
    · cases hp : parseRuleLine l' with
      | none => simpa [hp] using h
      | some r' =>
        simp only [hp]
        rw [dictLookup_insert_ne k r'.name r'
          (hys l' (List.mem_cons_self _ _) r' hp)]
        exact h
    · intro l'' hl'' r'' hp''
      exact hys l'' (List.mem_cons_of_mem _ hl'') r'' hp''

/-- C6 (amended): rule loading maps each line that strips to a
non-empty, non-`#`, exactly-three-field `name|category|reason` form to a
rule keyed by its name, and every such rule is present in the loaded
map: for any valid line not followed by a later valid line with the same
name, the lookup of its name yields exactly its rule (so on duplicate
names the last valid line wins).  A line that does not parse is skipped
with no effect on the result.  When the database is missing, any run
that scans at least one unit (file mode, or directory mode over at
least one file) aborts with exit code 2 and produces no results — a
directory run over zero files never loads the database and exits 0. -/
theorem c6_rule_loading :
    (∀ (xs ys : List (List Char)) (bad : List Char), parseRuleLine bad = none →
      load_forbidden_calls (xs ++ bad :: ys) = load_forbidden_calls (xs ++ ys)) ∧
    (∀ (xs ys : List (List Char)) (l : List Char) (r : ForbiddenCall),
      parseRuleLine l = some r →
      (∀ l' ∈ ys, ∀ r', parseRuleLine l' = some r' → r'.name ≠ r.name) →
      dictLookup r.name (load_forbidden_calls (xs ++ l :: ys)) = some r) ∧
    (∀ (env : Env) (nm content : List Char) (f : List Char × List Char)
        (fs : List (List Char × List Char)), env.dbExists = false →
      runTarget env nm (PathState.isFile content) = (2, []) ∧
      runTarget env nm (PathState.isDir (f :: fs)) = (2, [])) := by
  refine ⟨?_, ?_, ?_⟩
  · intro xs ys bad h
    unfold load_forbidden_calls
    rw [List.foldl_append, List.foldl_append, List.foldl_cons]
    simp only [h]
  · intro xs ys l r h hys
    unfold load_forbidden_calls
    rw [List.foldl_append, List.foldl_cons]
    simp only [h]
    exact load_fold_preserve ys _ r.name r (dictLookup_insert r.name r _) hys
  · intro env nm content f fs h
    constructor
    · unfold runTarget check_content_run
      rw [h]
      rfl
    · simp only [runTarget]
      rw [check_directory_run_err env h f fs]

/-- C6 witness: a database whose malformed middle line is skipped; the
second `BlockMove` line overrides the first (last wins), and a later
line with a different name does not disturb it. -/
theorem c6_witness :
    dictLookup "BlockMove".toList
      (load_forbidden_calls
        ["BlockMove|m1|r1".toList, "bad line".toList, "BlockMove|m2|r2".toList,
         "TickCount|t|r3".toList]) =
      some ⟨"BlockMove".toList, "m2".toList, "r2".toList⟩ := by
  have h := c6_rule_loading.2.1 ["BlockMove|m1|r1".toList, "bad line".toList]
    ["TickCount|t|r3".toList] "BlockMove|m2|r2".toList
    ⟨"BlockMove".toList, "m2".toList, "r2".toList⟩ (by decide) ?_
  · exact h
  · intro l' hl' r' hp'
    rcases List.mem_cons.mp hl' with rfl | hl'
    · rw [show parseRuleLine "TickCount|t|r3".toList =
        some ⟨"TickCount".toList, "t".toList, "r3".toList⟩ by decide] at hp'
      cases hp'
      decide
    · simp at hl'

theorem check_directory_run_ok (env : Env) (h : env.dbExists = true) :
    ∀ files, check_directory_run env files =
      .ok (check_directory env.dbLines files) := by
  intro files
  induction files with
  | nil => rfl
  | cons f fs ih =>
    rw [check_directory_run]
    unfold check_content_run
    rw [h]
    simp only [if_true, ih]
    unfold check_directory
    rw [List.flatMap_cons]
    rfl

/-- C7: a missing target exits 2 with nothing reported; with the rule
database present, a file- or directory-mode scan exits 0 when its result
holds zero violations and 1 when it holds at least one. -/
theorem c7_exit_codes (env : Env) (nm : List Char) (st : PathState) :
    (st = PathState.absent → runTarget env nm st = (2, [])) ∧
    (env.dbExists = true → ∀ c, st = PathState.isFile c →
      ((runTarget env nm st).2 = [] → (runTarget env nm st).1 = 0) ∧
      ((runTarget env nm st).2 ≠ [] → (runTarget env nm st).1 = 1)) ∧
    (env.dbExists = true → ∀ fs, st = PathState.isDir fs →
      ((runTarget env nm st).2 = [] → (runTarget env nm st).1 = 0) ∧
      ((runTarget env nm st).2 ≠ [] → (runTarget env nm st).1 = 1)) := by
  refine ⟨?_, ?_, ?_⟩
  · intro h
    subst h
    rfl
  · intro hdb c h
    subst h
    unfold runTarget check_content_run
    rw [hdb]
    simp only [if_true]
    by_cases hz : check_content env.dbLines c nm = []
    · rw [if_pos hz]
      exact ⟨fun _ => rfl, fun hne => absurd hz hne⟩
    · rw [if_neg hz]
      exact ⟨fun hz' => absurd hz' hz, fun _ => rfl⟩
  · intro hdb fs h
    subst h
    simp only [runTarget]
    rw [check_directory_run_ok env hdb fs]
    show (check_directory env.dbLines fs = [] →
        (if check_directory env.dbLines fs = [] then 0 else 1 : Nat) = 0) ∧
      (check_directory env.dbLines fs ≠ [] →
        (if check_directory env.dbLines fs = [] then 0 else 1 : Nat) = 1)
    by_cases hz : check_directory env.dbLines fs = []
    · rw [if_pos hz]
      exact ⟨fun _ => rfl, fun hne => absurd hz hne⟩
    · rw [if_neg hz]
      exact ⟨fun hz' => absurd hz' hz, fun _ => rfl⟩


/-- C7 witness: the three exit codes on concrete runs — missing target,
a file with one violation, a clean file. -/
theorem c7_witness :
    runTarget ⟨true, c1db⟩ "f".toList PathState.absent = (2, []) ∧
    (runTarget ⟨true, c1db⟩ "f".toList (PathState.isFile c1code)).1 = 1 ∧
    (runTarget ⟨true, c1db⟩ "f".toList (PathState.isFile "int x;".toList)).1 = 0 := by
  refine ⟨(c7_exit_codes ⟨true, c1db⟩ "f".toList PathState.absent).1 rfl, ?_, ?_⟩
  · exact ((c7_exit_codes ⟨true, c1db⟩ "f".toList (PathState.isFile c1code)).2.1
      rfl c1code rfl).2 (by decide)
  · exact ((c7_exit_codes ⟨true, c1db⟩ "f".toList
      (PathState.isFile "int x;".toList)).2.1 rfl "int x;".toList rfl).1 (by decide)

/-- C8 counterexample: a directory-mode scan over two files performs two
loads of the rule database, not at most one. -/
theorem c8_counterexample :
    check_directory_loadCount
      [("a.c".toList, "int x;".toList), ("b.c".toList, "int y;".toList)] = 2 ∧
    ¬ check_directory_loadCount
      [("a.c".toList, "int x;".toList), ("b.c".toList, "int y;".toList)] ≤ 1 := by
  constructor
  · rfl
  · decide

/-- C8 (amended): the Rule Store is loaded once per scanned content unit
— a directory scan over N files performs exactly N loads — and every
unit in the run is scanned against the rule map loaded from the same
database lines. -/
theorem c8_load_per_unit (dbLines : List (List Char))
    (files : List (List Char × List Char)) :
    check_directory_loadCount files = files.length ∧
    check_directory dbLines files =
      files.flatMap (fun f =>
        check_content_with (load_forbidden_calls dbLines) f.2 f.1) := by
  constructor
  · unfold check_directory_loadCount check_file_loadCount check_content_loadCount
    induction files with
    | nil => rfl
    | cons f fs ih =>
      rw [List.map_cons, List.sum_cons, ih, List.length_cons]
      omega
  · rfl

theorem mem_enumerateFrom {α : Type} (l : List α) :
    ∀ (i : Nat) (p : Nat × α), p ∈ enumerateFrom i l → i ≤ p.1 ∧ p.1 < i + l.length := by
  induction l with
  | nil => intro i p h; simp [enumerateFrom] at h
  | cons x xs ih =>
    intro i p h
    rw [enumerateFrom] at h
    rcases List.mem_cons.mp h with rfl | h'
    · simp
    · have := ih (i + 1) p h'
      simp only [List.length_cons]
      omega

theorem mem_find_callback (code : List Char) (cb : List Char × Nat × Nat)
    (h : cb ∈ find_callback_functions code) : 1 ≤ cb.2.1 := by
  have hsub : cb ∈ rawCallbacks code :=
    (dedupFirstAux_sublist (rawCallbacks code) []).subset h
  unfold rawCallbacks at hsub
  rw [List.mem_flatMap] at hsub
  obtain ⟨m, _, hm⟩ := hsub
  rw [List.mem_filterMap] at hm
  obtain ⟨x, _, hx⟩ := hm
  unfold spanOfMatch at hx
  cases hfb : findBraceFrom code x.2.1 with
  | none => rw [hfb] at hx; simp at hx
  | some q =>
    rw [hfb] at hx
    simp only [Option.some.injEq] at hx
    rw [← hx]
    simp

theorem dictInsert_keys_sub (k : List Char) (v : ForbiddenCall) :
    ∀ (m : List (List Char × ForbiddenCall)) (a : List Char),
      a ∈ (dictInsert m k v).map Prod.fst → a = k ∨ a ∈ m.map Prod.fst := by
  intro m
  induction m with
  | nil =>
    intro a ha
    simp [dictInsert] at ha
    exact Or.inl ha
  | cons p rest ih =>
    obtain ⟨k', v'⟩ := p
    intro a ha
    rw [dictInsert] at ha
    by_cases h : k' = k
    · rw [if_pos h] at ha
      rw [List.map_cons, List.mem_cons] at ha
      rcases ha with rfl | ha
      · exact Or.inl rfl
      · exact Or.inr (by rw [List.map_cons, List.mem_cons]; exact Or.inr ha)
    · rw [if_neg h] at ha
      rw [List.map_cons, List.mem_cons] at ha
      rcases ha with rfl | ha
      · exact Or.inr (by rw [List.map_cons, List.mem_cons]; exact Or.inl rfl)
      · rcases ih a ha with h1 | h1
        · exact Or.inl h1
        · exact Or.inr (by rw [List.map_cons, List.mem_cons]; exact Or.inr h1)

theorem dictInsert_nodupKeys (k : List Char) (v : ForbiddenCall) :
    ∀ m : List (List Char × ForbiddenCall), (m.map Prod.fst).Nodup →
      ((dictInsert m k v).map Prod.fst).Nodup := by
  intro m
  induction m with
  | nil => intro _; simp [dictInsert]
  | cons p rest ih =>
    obtain ⟨k', v'⟩ := p
    intro h
    rw [List.map_cons, List.nodup_cons] at h
    rw [dictInsert]
    by_cases hk : k' = k
    · rw [if_pos hk]
      rw [List.map_cons, List.nodup_cons]
      exact ⟨by rw [← hk]; exact h.1, h.2⟩
    · rw [if_neg hk]
      rw [List.map_cons, List.nodup_cons]
      refine ⟨?_, ih h.2⟩
      intro hmem
      rcases dictInsert_keys_sub k v rest k' hmem with h1 | h1
      · exact hk h1
      · exact h.1 h1

theorem dictLookup_of_mem (k : List Char) (fc : ForbiddenCall) :
    ∀ m : List (List Char × ForbiddenCall), (m.map Prod.fst).Nodup →
      (k, fc) ∈ m → dictLookup k m = some fc := by
  intro m
  induction m with
  | nil => intro _ h; simp at h
  | cons p rest ih =>
    obtain ⟨k', v'⟩ := p
    intro hn hm
    rw [List.map_cons, List.nodup_cons] at hn
    rw [dictLookup]
    rcases List.mem_cons.mp hm with heq | hmem
    · injection heq with h1 h2
      subst h1
      subst h2
      rw [if_pos rfl]
    · by_cases hk : k' = k
      · exfalso
        apply hn.1
        subst hk
        exact List.mem_map.mpr ⟨(k', fc), hmem, rfl⟩
      · rw [if_neg hk]
        exact ih hn.2 hmem

theorem load_fold_nodup (lines : List (List Char)) :
    ∀ acc : List (List Char × ForbiddenCall), (acc.map Prod.fst).Nodup →
      ((lines.foldl (fun m line =>
          match parseRuleLine line with
          | some r => dictInsert m r.name r
          | none => m) acc).map Prod.fst).Nodup := by
  induction lines with
  | nil => intro acc h; exact h
  | cons l ls ih =>
    intro acc h
    rw [List.foldl_cons]
    apply ih
    cases hp : parseRuleLine l with
    | none => simpa [hp] using h
    | some r =>
      simp only [hp]
      exact dictInsert_nodupKeys r.name r acc h

theorem load_nodupKeys (dbLines : List (List Char)) :
    ((load_forbidden_calls dbLines).map Prod.fst).Nodup := by
  unfold load_forbidden_calls
  exact load_fold_nodup dbLines [] (by simp)

/-- C9: every Violation produced by the content scan names a callback
span found by the locator on the same source whose line interval
contains the violation's line, and carries a forbidden call that is a
key of the loaded rule map, with that rule's category and reason. -/
theorem c9_invariant (dbLines : List (List Char)) (code fname : List Char)
    (v : Violation) (hv : v ∈ check_content dbLines code fname) :
    (∃ cb ∈ find_callback_functions code,
      v.callback_name = cb.1 ∧ cb.2.1 ≤ v.line ∧ v.line ≤ cb.2.2) ∧
    (∃ r : ForbiddenCall,
      dictLookup v.forbidden_call (load_forbidden_calls dbLines) = some r ∧
      v.category = r.category ∧ v.reason = r.reason) := by
  unfold check_content check_content_with at hv
  rw [List.mem_flatMap] at hv
  obtain ⟨cb, hcb, hv⟩ := hv
  have hstart : 1 ≤ cb.2.1 := mem_find_callback code cb hcb
  simp only [check_function_for_violations] at hv
  rw [List.mem_flatMap] at hv
  obtain ⟨r, hr, hv⟩ := hv
  rw [List.mem_filterMap] at hv
  obtain ⟨il, hil, hsome⟩ := hv
  have hbound := mem_enumerateFrom _ 0 il hil
  have hlen : (((splitLines code).drop (cb.2.1 - 1)).take
      (cb.2.2 - (cb.2.1 - 1))).length ≤ cb.2.2 - (cb.2.1 - 1) := by
    rw [List.length_take]
    exact min_le_left _ _
  by_cases hc : lineTriggers r.1 il.2 = true
  · rw [if_pos hc, Option.some.injEq] at hsome
    subst hsome
    constructor
    · refine ⟨cb, hcb, rfl, ?_, ?_⟩
      · exact Nat.le_add_right _ _
      · have h2 : il.1 < cb.2.2 - (cb.2.1 - 1) :=
          lt_of_lt_of_le (by simpa using hbound.2) hlen
        show cb.2.1 + il.1 ≤ cb.2.2
        omega
    · refine ⟨r.2, ?_, rfl, rfl⟩
      exact dictLookup_of_mem r.1 r.2 _ (load_nodupKeys dbLines) hr
  · rw [if_neg hc] at hsome
    simp at hsome

/-- C9 witness: the end-to-end example's violation satisfies the
invariant. -/
theorem c9_witness :
    (∃ cb ∈ find_callback_functions c1code,
      c1vio.callback_name = cb.1 ∧ cb.2.1 ≤ c1vio.line ∧ c1vio.line ≤ cb.2.2) ∧
    (∃ r : ForbiddenCall,
      dictLookup c1vio.forbidden_call (load_forbidden_calls c1db) = some r ∧
      c1vio.category = r.category ∧ c1vio.reason = r.reason) :=
  c9_invariant c1db c1code "<stdin>".toList c1vio (by decide)

end ISR
